import Mathlib

/-!
Shallow embedding of the DNS message codec and stub forwarding resolver from
`dns_server.py` (repository sidharth1507/DNS-Server).

Modelling conventions:
* Python `bytes` values are `List Nat` (each element a byte value).
* Python `str` values (sequences of code points) are `List Char`.
* Python exceptions (struct.error on out-of-range pack, IndexError on
  out-of-range byte access, UnicodeDecodeError / UnicodeEncodeError on
  non-ASCII data) are modelled by `Option`: `none` is a raised exception.
* Python slices `data[a:b]` clamp to the buffer, they never raise; this is
  modelled by `sliceBytes` (drop then take).
* The unbounded recursion of `unpack_domain_name` (compression pointers can
  form cycles) is modelled with an explicit fuel parameter; running out of
  fuel, like any error, yields `none`.
-/

namespace DnsServer

/-- Python slice `data[a:b]` for 0 ≤ a ≤ b: clamps to the buffer bounds. -/
def sliceBytes (data : List Nat) (a b : Nat) : List Nat :=
  (data.drop a).take (b - a)

/-- Read a big-endian 16-bit value at index `i`; `none` when fewer than
2 bytes are available (Python `struct.unpack` raises on a short slice). -/
def readU16 (data : List Nat) (i : Nat) : Option Nat := do
  let hi ← data[i]?
  let lo ← data[i + 1]?
  pure (hi * 256 + lo)

/-- Read a big-endian 32-bit value at index `i`. -/
def readU32 (data : List Nat) (i : Nat) : Option Nat := do
  let b0 ← data[i]?
  let b1 ← data[i + 1]?
  let b2 ← data[i + 2]?
  let b3 ← data[i + 3]?
  pure (b0 * 16777216 + b1 * 65536 + b2 * 256 + b3)

/-- Python `struct.pack('>H', x)`: two big-endian bytes, raising (hence
`none`) when `x` does not fit in 16 bits. -/
def u16be (x : Nat) : Option (List Nat) :=
  if x < 65536 then some [x / 256, x % 256] else none

/-- Python `struct.pack('>I', x)`: four big-endian bytes, raising when `x`
does not fit in 32 bits. -/
def u32be (x : Nat) : Option (List Nat) :=
  if x < 4294967296 then
    some [x / 16777216, x / 65536 % 256, x / 256 % 256, x % 256]
  else none

/-- Python `s.split('.')` on a string modelled as a char list: the pieces
between dots, empty pieces kept, `[]` splitting to `[[]]`. -/
def splitDot : List Char → List (List Char)
  | [] => [[]]
  | c :: cs =>
    match splitDot cs with
    | [] => [[]]
    | p :: ps => if c = '.' then [] :: p :: ps else (c :: p) :: ps

/-- Python `'.'.join(parts)`. -/
def joinDot : List (List Char) → List Char
  | [] => []
  | [p] => p
  | p :: ps => p ++ '.' :: joinDot ps

/-- Python `'.'.join(filter(None, name_parts))`: empty parts are dropped
before joining. -/
def joinParts (name_parts : List (List Char)) : List Char :=
  joinDot (name_parts.filter (fun p => decide (p ≠ [])))

/-- Python `label.encode('ascii')`: raises on any code point ≥ 128. -/
def ascii_encode (s : List Char) : Option (List Nat) :=
  if ∀ c ∈ s, c.toNat < 128 then some (s.map Char.toNat) else none

/-- Python `bs.decode('ascii')`: raises on any byte ≥ 128. -/
def ascii_decode (bs : List Nat) : Option (List Char) :=
  if ∀ b ∈ bs, b < 128 then some (bs.map Char.ofNat) else none

/-- DNSHeader: thirteen fields exactly as in the Python `__init__`. -/
structure DNSHeader where
  id : Nat
  qr : Nat
  opcode : Nat
  aa : Nat
  tc : Nat
  rd : Nat
  ra : Nat
  z : Nat
  rcode : Nat
  qdcount : Nat
  ancount : Nat
  nscount : Nat
  arcount : Nat
deriving DecidableEq, Repr

/-- The flags word of `DNSHeader.pack`:
`(qr << 15) | (opcode << 11) | (aa << 10) | (tc << 9) | (rd << 8) |
(ra << 7) | (z << 4) | rcode`. -/
def mkFlags (h : DNSHeader) : Nat :=
  (h.qr <<< 15) ||| (h.opcode <<< 11) ||| (h.aa <<< 10) ||| (h.tc <<< 9) |||
    (h.rd <<< 8) ||| (h.ra <<< 7) ||| (h.z <<< 4) ||| h.rcode

/-- `DNSHeader.pack`: id, flags, qdcount, ancount, nscount, arcount as
big-endian 16-bit words. -/
def DNSHeader.pack (h : DNSHeader) : Option (List Nat) := do
  let i ← u16be h.id
  let f ← u16be (mkFlags h)
  let qd ← u16be h.qdcount
  let an ← u16be h.ancount
  let ns ← u16be h.nscount
  let ar ← u16be h.arcount
  pure (i ++ f ++ qd ++ an ++ ns ++ ar)

/-- `DNSHeader.unpack`: `struct.unpack('>HHHHHH', data[:12])` then flag-bit
extraction; fails when the buffer has fewer than 12 bytes. -/
def DNSHeader.unpack (data : List Nat) : Option DNSHeader := do
  let id ← readU16 data 0
  let flags ← readU16 data 2
  let qdcount ← readU16 data 4
  let ancount ← readU16 data 6
  let nscount ← readU16 data 8
  let arcount ← readU16 data 10
  pure ⟨id, (flags >>> 15) &&& 0x1, (flags >>> 11) &&& 0xF,
    (flags >>> 10) &&& 0x1, (flags >>> 9) &&& 0x1, (flags >>> 8) &&& 0x1,
    (flags >>> 7) &&& 0x1, (flags >>> 4) &&& 0x7, flags &&& 0xF,
    qdcount, ancount, nscount, arcount⟩

/-- DNSQuestion: name, qtype, qclass. -/
structure DNSQuestion where
  name : List Char
  qtype : Nat
  qclass : Nat
deriving DecidableEq, Repr

/-- One label of `pack_domain_name`: `struct.pack('B', len(label))` (raises
above 255) followed by `label.encode('ascii')`. -/
def pack_label (label : List Char) : Option (List Nat) :=
  if label.length ≤ 255 then do
    let bs ← ascii_encode label
    pure (label.length :: bs)
  else none

/-- The loop of `pack_domain_name` over the labels. -/
def pack_labels : List (List Char) → Option (List Nat)
  | [] => some []
  | l :: ls => do
    let b ← pack_label l
    let rest ← pack_labels ls
    pure (b ++ rest)

/-- `DNSQuestion.pack_domain_name`: split on '.', emit a length byte and the
raw bytes for each label, terminate with a zero byte. -/
def pack_domain_name (domain_name : List Char) : Option (List Nat) := do
  let body ← pack_labels (splitDot domain_name)
  pure (body ++ [0])

/-- The while-loop of `DNSQuestion.unpack_domain_name`, with the list of
already-collected parts as accumulator and explicit fuel. -/
def unpack_domain_name_aux (data : List Nat) :
    Nat → Nat → List (List Char) → Option (List Char × Nat)
  | 0, _, _ => none
  | fuel + 1, offset, name_parts =>
    match data[offset]? with
    | none => none
    | some length =>
      if length &&& 0xC0 = 0xC0 then
        match data[offset + 1]? with
        | none => none
        | some b =>
          match unpack_domain_name_aux data fuel
              (((length &&& 0x3F) <<< 8) ||| b) [] with
          | none => none
          | some (pointed_name, _) =>
            some (joinParts (name_parts ++ [pointed_name]), offset + 2)
      else if length = 0 then
        some (joinParts name_parts, offset + 1)
      else
        match ascii_decode (sliceBytes data (offset + 1)
            (offset + 1 + length)) with
        | none => none
        | some label =>
          unpack_domain_name_aux data fuel (offset + 1 + length)
            (name_parts ++ [label])

/-- `DNSQuestion.unpack_domain_name data offset`: returns the joined
dot-separated name (empty parts filtered) and the offset one past the
terminating zero byte or two past a compression pointer. -/
def unpack_domain_name (data : List Nat) (offset fuel : Nat) :
    Option (List Char × Nat) :=
  unpack_domain_name_aux data fuel offset []

/-- `DNSQuestion.pack`: encoded name, then qtype and qclass as big-endian
16-bit words. -/
def DNSQuestion.pack (q : DNSQuestion) : Option (List Nat) := do
  let name_bytes ← pack_domain_name q.name
  let t ← u16be q.qtype
  let c ← u16be q.qclass
  pure (name_bytes ++ t ++ c)

/-- `DNSQuestion.unpack data offset`: decode the name, read 4 bytes of
qtype/qclass, return the question and the offset 4 past the name. -/
def DNSQuestion.unpack (data : List Nat) (offset fuel : Nat) :
    Option (DNSQuestion × Nat) := do
  let (name, o) ← unpack_domain_name data offset fuel
  let qtype ← readU16 data o
  let qclass ← readU16 data (o + 2)
  pure (⟨name, qtype, qclass⟩, o + 4)

/-- DNSRecord: name, type, class, ttl, opaque rdata bytes. -/
structure DNSRecord where
  name : List Char
  record_type : Nat
  record_class : Nat
  ttl : Nat
  rdata : List Nat
deriving DecidableEq, Repr

/-- `DNSRecord.pack`: encoded name, `struct.pack('>HHIH', type, class, ttl,
len(rdata))`, then the raw rdata bytes. -/
def DNSRecord.pack (r : DNSRecord) : Option (List Nat) := do
  let name_bytes ← pack_domain_name r.name
  let t ← u16be r.record_type
  let c ← u16be r.record_class
  let ttlb ← u32be r.ttl
  let dl ← u16be r.rdata.length
  pure (name_bytes ++ t ++ c ++ ttlb ++ dl ++ r.rdata)

/-- `DNSRecord.unpack data offset`: decode the name, read the 10 fixed bytes,
then slice `data[offset:offset+data_length]` (a Python slice: it clamps, so
rdata is silently truncated when data_length overruns the buffer) and return
the offset advanced by the declared length. -/
def DNSRecord.unpack (data : List Nat) (offset fuel : Nat) :
    Option (DNSRecord × Nat) := do
  let (name, o) ← unpack_domain_name data offset fuel
  let record_type ← readU16 data o
  let record_class ← readU16 data (o + 2)
  let ttl ← readU32 data (o + 4)
  let data_length ← readU16 data (o + 8)
  pure (⟨name, record_type, record_class, ttl,
    sliceBytes data (o + 10) (o + 10 + data_length)⟩, o + 10 + data_length)

/-- DNSMessage: header, questions, answers. -/
structure DNSMessage where
  header : DNSHeader
  questions : List DNSQuestion
  answers : List DNSRecord
deriving DecidableEq, Repr

/-- The packing loops of `DNSMessage.pack`, concatenating the packed items. -/
def pack_list {α : Type} (packFn : α → Option (List Nat)) :
    List α → Option (List Nat)
  | [] => some []
  | x :: xs => do
    let b ← packFn x
    let rest ← pack_list packFn xs
    pure (b ++ rest)

/-- `DNSMessage.pack`: header bytes, then each question, then each answer. -/
def DNSMessage.pack (m : DNSMessage) : Option (List Nat) := do
  let h ← m.header.pack
  let qs ← pack_list DNSQuestion.pack m.questions
  let ans ← pack_list DNSRecord.pack m.answers
  pure (h ++ qs ++ ans)

/-- The question-decoding loop of `DNSMessage.unpack`: `count` iterations
advancing a shared cursor. -/
def unpack_questions (data : List Nat) (fuel : Nat) :
    Nat → Nat → Option (List DNSQuestion × Nat)
  | 0, offset => some ([], offset)
  | count + 1, offset => do
    let (q, o) ← DNSQuestion.unpack data offset fuel
    let (qs, o2) ← unpack_questions data fuel count o
    pure (q :: qs, o2)

/-- The answer-decoding loop of `DNSMessage.unpack`. -/
def unpack_records (data : List Nat) (fuel : Nat) :
    Nat → Nat → Option (List DNSRecord × Nat)
  | 0, offset => some ([], offset)
  | count + 1, offset => do
    let (r, o) ← DNSRecord.unpack data offset fuel
    let (rs, o2) ← unpack_records data fuel count o
    pure (r :: rs, o2)

/-- `DNSMessage.unpack`: header from the first 12 bytes, then exactly
`qdcount` questions and `ancount` answers from offset 12 on; `nscount` and
`arcount` sections are never consumed, trailing bytes are ignored. -/
def DNSMessage.unpack (data : List Nat) (fuel : Nat) : Option DNSMessage := do
  let header ← DNSHeader.unpack data
  let (questions, o) ← unpack_questions data fuel header.qdcount 12
  let (answers, _) ← unpack_records data fuel header.ancount o
  pure ⟨header, questions, answers⟩

/-- `create_response`: unpack the request, forward the raw bytes through the
relay (`forward_dns_query`, modelled as a function parameter returning `none`
on timeout or transport error), return the relayed bytes when truthy
(Python `if response_data:` — `None` and empty bytes are falsy), otherwise
build and pack the SERVFAIL error response. -/
def create_response (request_data : List Nat)
    (relay : List Nat → Option (List Nat)) (fuel : Nat) :
    Option (List Nat) := do
  let request ← DNSMessage.unpack request_data fuel
  let error_header : DNSHeader :=
    ⟨request.header.id, 1, request.header.opcode, 0, 0, request.header.rd,
      0, 0, 2, request.questions.length, 0, 0, 0⟩
  let error_response : DNSMessage := ⟨error_header, request.questions, []⟩
  match relay request_data with
  | some response_data =>
    if response_data = [] then DNSMessage.pack error_response
    else pure response_data
  | none => DNSMessage.pack error_response

/-! Section: Bit-arithmetic helpers -/

theorem and_fifteen (x : Nat) : x &&& 15 = x % 16 := by
  have h := Nat.and_pow_two_sub_one_eq_mod x 4
  norm_num at h
  exact h

theorem and_seven (x : Nat) : x &&& 7 = x % 8 := by
  have h := Nat.and_pow_two_sub_one_eq_mod x 3
  norm_num at h
  exact h

theorem lor_eq_add_of_lt (k a b : Nat) (hd : 2 ^ k ∣ a) (hb : b < 2 ^ k) :
    a ||| b = a + b := by
  induction k generalizing a b with
  | zero =>
    have hb0 : b = 0 := by simpa using hb
    subst hb0
    simp
  | succ k ih =>
    have h2 : (2 : Nat) ∣ a := dvd_trans (dvd_pow_self 2 (Nat.succ_ne_zero k)) hd
    have hk : 2 ^ k ∣ a / 2 := by
      obtain ⟨m, hm⟩ := hd
      refine ⟨m, ?_⟩
      rw [hm, pow_succ]
      rw [show 2 ^ k * 2 * m = 2 * (2 ^ k * m) by ring]
      rw [Nat.mul_div_cancel_left _ (by norm_num)]
    have ha0 : a % 2 = 0 := by
      obtain ⟨c, hc⟩ := h2
      omega
    have key := Nat.div_add_mod (a ||| b) 2
    have hod : (a ||| b) / 2 = a / 2 ||| b / 2 := Nat.or_div_two
    have hmod : (a ||| b) % 2 = b % 2 := by
      have hiff := @Nat.or_mod_two_eq_one a b
      rcases Nat.mod_two_eq_zero_or_one b with h0 | h1
      · have hne : ¬(a ||| b) % 2 = 1 := by rw [hiff]; omega
        have := Nat.mod_two_eq_zero_or_one (a ||| b)
        omega
      · have := hiff.mpr (Or.inr h1)
        omega
    have hb2 : b / 2 < 2 ^ k := by
      have hlt : b < 2 ^ k * 2 := by rw [← pow_succ]; exact hb
      omega
    have hih := ih (a / 2) (b / 2) hk hb2
    omega

theorem and192_eq_zero {n : Nat} (h : n < 64) : n &&& 192 = 0 := by
  apply Nat.eq_of_testBit_eq
  intro i
  rw [Nat.testBit_and, Nat.zero_testBit]
  rcases lt_or_ge i 6 with hi | hi
  · have h192 : (192 : Nat).testBit i = false := by interval_cases i <;> decide
    simp [h192]
  · have hn : n.testBit i = false := by
      apply Nat.testBit_lt_two_pow
      calc n < 64 := h
        _ = 2 ^ 6 := by norm_num
        _ ≤ 2 ^ i := Nat.pow_le_pow_right (by norm_num) hi
    simp [hn]

/-! Section: List indexing helpers -/

theorem getElem?_append_len {α : Type} (A l : List α) (k : Nat) :
    (A ++ l)[A.length + k]? = l[k]? := by
  rw [List.getElem?_append_right (Nat.le_add_right _ _)]
  congr 1
  omega

theorem readU16_append (A l : List Nat) (a b : Nat) :
    readU16 (A ++ a :: b :: l) A.length = some (a * 256 + b) := by
  have h0 := getElem?_append_len A (a :: b :: l) 0
  have h1 := getElem?_append_len A (a :: b :: l) 1
  simp only [Nat.add_zero] at h0
  simp [readU16, h0, h1]

theorem readU32_append (A l : List Nat) (a b c d : Nat) :
    readU32 (A ++ a :: b :: c :: d :: l) A.length
      = some (a * 16777216 + b * 65536 + c * 256 + d) := by
  have h0 := getElem?_append_len A (a :: b :: c :: d :: l) 0
  have h1 := getElem?_append_len A (a :: b :: c :: d :: l) 1
  have h2 := getElem?_append_len A (a :: b :: c :: d :: l) 2
  have h3 := getElem?_append_len A (a :: b :: c :: d :: l) 3
  simp only [Nat.add_zero] at h0
  simp [readU32, h0, h1, h2, h3]

theorem sliceBytes_append (A mid rest : List Nat) :
    sliceBytes (A ++ (mid ++ rest)) A.length (A.length + mid.length) = mid := by
  unfold sliceBytes
  rw [List.drop_left, Nat.add_sub_cancel_left, List.take_left]

/-! Section: Header codec -/

theorem mkFlags_eq (h : DNSHeader) (hqr : h.qr < 2) (hop : h.opcode < 16)
    (haa : h.aa < 2) (htc : h.tc < 2) (hrd : h.rd < 2) (hra : h.ra < 2)
    (hz : h.z < 8) (hrc : h.rcode < 16) :
    mkFlags h = h.qr * 32768 + h.opcode * 2048 + h.aa * 1024 + h.tc * 512 +
      h.rd * 256 + h.ra * 128 + h.z * 16 + h.rcode := by
  unfold mkFlags
  rw [Nat.shiftLeft_eq, Nat.shiftLeft_eq, Nat.shiftLeft_eq, Nat.shiftLeft_eq,
    Nat.shiftLeft_eq, Nat.shiftLeft_eq, Nat.shiftLeft_eq]
  norm_num
  rw [lor_eq_add_of_lt 15 (h.qr * 32768) (h.opcode * 2048)
    ⟨h.qr, by ring⟩ (by omega)]
  rw [lor_eq_add_of_lt 11 (h.qr * 32768 + h.opcode * 2048) (h.aa * 1024)
    ⟨h.qr * 16 + h.opcode, by ring⟩ (by omega)]
  rw [lor_eq_add_of_lt 10
    (h.qr * 32768 + h.opcode * 2048 + h.aa * 1024) (h.tc * 512)
    ⟨h.qr * 32 + h.opcode * 2 + h.aa, by ring⟩ (by omega)]
  rw [lor_eq_add_of_lt 9
    (h.qr * 32768 + h.opcode * 2048 + h.aa * 1024 + h.tc * 512) (h.rd * 256)
    ⟨h.qr * 64 + h.opcode * 4 + h.aa * 2 + h.tc, by ring⟩ (by omega)]
  rw [lor_eq_add_of_lt 8
    (h.qr * 32768 + h.opcode * 2048 + h.aa * 1024 + h.tc * 512 + h.rd * 256)
    (h.ra * 128)
    ⟨h.qr * 128 + h.opcode * 8 + h.aa * 4 + h.tc * 2 + h.rd, by ring⟩
    (by omega)]
  rw [lor_eq_add_of_lt 7
    (h.qr * 32768 + h.opcode * 2048 + h.aa * 1024 + h.tc * 512 + h.rd * 256 +
      h.ra * 128) (h.z * 16)
    ⟨h.qr * 256 + h.opcode * 16 + h.aa * 8 + h.tc * 4 + h.rd * 2 + h.ra,
      by ring⟩ (by omega)]
  rw [lor_eq_add_of_lt 4
    (h.qr * 32768 + h.opcode * 2048 + h.aa * 1024 + h.tc * 512 + h.rd * 256 +
      h.ra * 128 + h.z * 16) h.rcode
    ⟨h.qr * 2048 + h.opcode * 128 + h.aa * 64 + h.tc * 32 + h.rd * 16 +
      h.ra * 8 + h.z, by ring⟩ (by omega)]

theorem header_pack_unpack (h : DNSHeader)
    (hid : h.id < 65536) (hqr : h.qr < 2) (hop : h.opcode < 16)
    (haa : h.aa < 2) (htc : h.tc < 2) (hrd : h.rd < 2) (hra : h.ra < 2)
    (hz : h.z < 8) (hrc : h.rcode < 16) (hqd : h.qdcount < 65536)
    (han : h.ancount < 65536) (hns : h.nscount < 65536)
    (har : h.arcount < 65536) :
    ∃ hb, DNSHeader.pack h = some hb ∧ hb.length = 12 ∧
      ∀ rest, DNSHeader.unpack (hb ++ rest) = some h := by
  have hfl := mkFlags_eq h hqr hop haa htc hrd hra hz hrc
  have hflt : mkFlags h < 65536 := by omega
  refine ⟨[h.id / 256, h.id % 256, mkFlags h / 256, mkFlags h % 256,
    h.qdcount / 256, h.qdcount % 256, h.ancount / 256, h.ancount % 256,
    h.nscount / 256, h.nscount % 256, h.arcount / 256, h.arcount % 256],
    ?_, by simp, ?_⟩
  · simp [DNSHeader.pack, u16be, hid, hflt, hqd, han, hns, har]
  · intro rest
    simp only [DNSHeader.unpack, readU16, List.cons_append, List.nil_append,
      List.getElem?_cons_zero, List.getElem?_cons_succ, Option.bind_eq_bind,
      Option.some_bind, Option.pure_def]
    have h16 : ∀ x : Nat, x < 65536 → x / 256 * 256 + x % 256 = x := by
      intro x _
      omega
    rw [h16 _ hid, h16 _ hflt, h16 _ hqd, h16 _ han, h16 _ hns, h16 _ har]
    have e1 : (mkFlags h >>> 15) &&& 0x1 = h.qr := by
      rw [Nat.shiftRight_eq_div_pow, Nat.and_one_is_mod]
      norm_num
      omega
    have e2 : (mkFlags h >>> 11) &&& 0xF = h.opcode := by
      rw [Nat.shiftRight_eq_div_pow, and_fifteen]
      norm_num
      omega
    have e3 : (mkFlags h >>> 10) &&& 0x1 = h.aa := by
      rw [Nat.shiftRight_eq_div_pow, Nat.and_one_is_mod]
      norm_num
      omega
    have e4 : (mkFlags h >>> 9) &&& 0x1 = h.tc := by
      rw [Nat.shiftRight_eq_div_pow, Nat.and_one_is_mod]
      norm_num
      omega
    have e5 : (mkFlags h >>> 8) &&& 0x1 = h.rd := by
      rw [Nat.shiftRight_eq_div_pow, Nat.and_one_is_mod]
      norm_num
      omega
    have e6 : (mkFlags h >>> 7) &&& 0x1 = h.ra := by
      rw [Nat.shiftRight_eq_div_pow, Nat.and_one_is_mod]
      norm_num
      omega
    have e7 : (mkFlags h >>> 4) &&& 0x7 = h.z := by
      rw [Nat.shiftRight_eq_div_pow, and_seven]
      norm_num
      omega
    have e8 : mkFlags h &&& 0xF = h.rcode := by
      rw [and_fifteen]
      omega
    rw [e1, e2, e3, e4, e5, e6, e7, e8]

/-! Section: Name codec: split and join -/

theorem splitDot_ne_nil (s : List Char) : splitDot s ≠ [] := by
  cases s with
  | nil => simp [splitDot]
  | cons c cs =>
    simp only [splitDot]
    cases hs : splitDot cs with
    | nil => simp
    | cons p ps => by_cases hc : c = '.' <;> simp [hc]

theorem joinDot_splitDot (s : List Char) : joinDot (splitDot s) = s := by
  induction s with
  | nil => simp [splitDot, joinDot]
  | cons c cs ih =>
    simp only [splitDot]
    cases hs : splitDot cs with
    | nil => exact absurd hs (splitDot_ne_nil cs)
    | cons p ps =>
      rw [hs] at ih
      by_cases hc : c = '.'
      · subst hc
        simp only [if_pos rfl, joinDot, List.nil_append]
        cases ps with
        | nil => simp [joinDot] at ih ⊢; rw [ih]
        | cons q qs => rw [ih]
      · simp only [if_neg hc]
        cases ps with
        | nil =>
          simp only [joinDot] at ih ⊢
          rw [ih]
        | cons q qs =>
          simp only [joinDot] at ih ⊢
          rw [← ih]
          simp

theorem joinParts_eq_joinDot (parts : List (List Char))
    (h : ∀ p ∈ parts, p ≠ []) : joinParts parts = joinDot parts := by
  unfold joinParts
  congr 1
  apply List.filter_eq_self.mpr
  intro a ha
  simpa using h a ha

/-! Section: Name codec: encoding lemmas -/

theorem pack_label_eq (l : List Char) (hlen : l.length ≤ 255)
    (hascii : ∀ c ∈ l, c.toNat < 128) :
    pack_label l = some (l.length :: l.map Char.toNat) := by
  unfold pack_label ascii_encode
  rw [if_pos hlen, if_pos hascii]
  rfl

theorem ascii_decode_map (l : List Char) (h : ∀ c ∈ l, c.toNat < 128) :
    ascii_decode (l.map Char.toNat) = some l := by
  unfold ascii_decode
  rw [if_pos]
  · simp [List.map_map, Function.comp_def]
  · intro b hb
    simp only [List.mem_map] at hb
    obtain ⟨c, hc, rfl⟩ := hb
    exact h c hc

/-! Section: More indexing helpers (offset-normalizing variants) -/

theorem getElem?_append' {α : Type} (A l : List α) (i k : Nat)
    (h : i = A.length + k) : (A ++ l)[i]? = l[k]? := by
  subst h
  exact getElem?_append_len A l k

theorem readU16_append' (A l : List Nat) (a b i : Nat) (h : i = A.length) :
    readU16 (A ++ a :: b :: l) i = some (a * 256 + b) := by
  subst h
  exact readU16_append A l a b

theorem readU32_append' (A l : List Nat) (a b c d i : Nat)
    (h : i = A.length) :
    readU32 (A ++ a :: b :: c :: d :: l) i
      = some (a * 16777216 + b * 65536 + c * 256 + d) := by
  subst h
  exact readU32_append A l a b c d

theorem sliceBytes_append' (A mid rest : List Nat) (a b : Nat)
    (ha : a = A.length) (hb : b = A.length + mid.length) :
    sliceBytes (A ++ (mid ++ rest)) a b = mid := by
  subst ha
  subst hb
  exact sliceBytes_append A mid rest

/-! Section: Name codec: decode of encode -/

theorem decode_encoded :
    ∀ (labels : List (List Char)) (pre rest : List Nat)
      (acc : List (List Char)) (fuel : Nat) (body : List Nat),
    pack_labels labels = some body →
    (∀ l ∈ labels, l ≠ []) →
    (∀ l ∈ labels, l.length ≤ 63) →
    (∀ l ∈ labels, ∀ c ∈ l, c.toNat < 128) →
    labels.length < fuel →
    unpack_domain_name_aux (pre ++ (body ++ 0 :: rest)) fuel pre.length acc
      = some (joinParts (acc ++ labels), pre.length + body.length + 1) := by
  intro labels
  induction labels with
  | nil =>
    intro pre rest acc fuel body hpack hne hlen hascii hfuel
    simp only [pack_labels, Option.some.injEq] at hpack
    subst hpack
    obtain ⟨f, rfl⟩ : ∃ f, fuel = f + 1 := ⟨fuel - 1, by omega⟩
    have hget : (pre ++ (0 :: rest))[pre.length]? = some 0 := by
      rw [getElem?_append' pre (0 :: rest) pre.length 0 (by omega)]
      simp
    simp only [List.nil_append]
    simp [unpack_domain_name_aux, hget]
  | cons l ls ih =>
    intro pre rest acc fuel body hpack hne hlen hascii hfuel
    have hl63 : l.length ≤ 63 := hlen l (by simp)
    have hlne : l ≠ [] := hne l (by simp)
    have hlascii : ∀ c ∈ l, c.toNat < 128 := hascii l (by simp)
    simp only [pack_labels] at hpack
    rw [pack_label_eq l (by omega) hlascii] at hpack
    cases hls : pack_labels ls with
    | none => rw [hls] at hpack; simp at hpack
    | some body' =>
      rw [hls] at hpack
      simp only [Option.bind_eq_bind, Option.some_bind, Option.pure_def,
        Option.some.injEq] at hpack
      subst hpack
      obtain ⟨f, rfl⟩ : ∃ f, fuel = f + 1 := ⟨fuel - 1, by omega⟩
      have hand : l.length &&& 192 = 0 := and192_eq_zero (by omega)
      have hne0 : ¬ l.length = 0 := by
        intro h0
        exact hlne (List.length_eq_zero.mp h0)
      have hget : (pre ++ ((l.length :: l.map Char.toNat) ++ body' ++ 0 ::
          rest))[pre.length]? = some l.length := by
        simpa using
          getElem?_append_len pre
            ((l.length :: l.map Char.toNat) ++ body' ++ 0 :: rest) 0
      have hslice : sliceBytes
          (pre ++ ((l.length :: l.map Char.toNat) ++ body' ++ 0 :: rest))
          (pre.length + 1) (pre.length + 1 + l.length)
          = l.map Char.toNat := by
        have hs := sliceBytes_append' (pre ++ [l.length]) (l.map Char.toNat)
          (body' ++ 0 :: rest) (pre.length + 1)
          (pre.length + 1 + l.length) (by simp) (by simp)
        simpa using hs
      have hrec := ih (pre ++ l.length :: l.map Char.toNat) rest (acc ++ [l])
        f body' hls (fun x hx => hne x (by simp [hx]))
        (fun x hx => hlen x (by simp [hx]))
        (fun x hx => hascii x (by simp [hx])) (by simp at hfuel; omega)
      have hoff : (pre ++ l.length :: l.map Char.toNat).length
          = pre.length + 1 + l.length := by
        simp
        omega
      rw [hoff] at hrec
      have hbuf : (pre ++ l.length :: l.map Char.toNat) ++ (body' ++ 0 ::
          rest) = pre ++ ((l.length :: l.map Char.toNat) ++ body' ++ 0 ::
          rest) := by
        simp
      rw [hbuf] at hrec
      simp only [unpack_domain_name_aux, hget, hand, hslice,
        ascii_decode_map l hlascii, hne0, if_false]
      rw [hrec]
      have hjp : (acc ++ [l]) ++ ls = acc ++ l :: ls := by simp
      rw [hjp]
      have hlen2 : pre.length + 1 + l.length + body'.length + 1
          = pre.length + ((l.length :: l.map Char.toNat) ++ body').length
            + 1 := by
        simp
        omega
      rw [hlen2]
      norm_num

theorem pack_labels_isSome (labels : List (List Char))
    (hlen : ∀ l ∈ labels, l.length ≤ 255)
    (hascii : ∀ l ∈ labels, ∀ c ∈ l, c.toNat < 128) :
    ∃ body, pack_labels labels = some body := by
  induction labels with
  | nil => exact ⟨[], rfl⟩
  | cons l ls ih =>
    obtain ⟨body', hb⟩ := ih (fun x hx => hlen x (by simp [hx]))
      (fun x hx => hascii x (by simp [hx]))
    exact ⟨(l.length :: l.map Char.toNat) ++ body', by
      simp [pack_labels, pack_label_eq l (hlen l (by simp))
        (hascii l (by simp)), hb]⟩

/-- C1: Name codec round trip — for every domain name (as the char sequence
of a Python str) whose dot-split labels are all non-empty ASCII strings of
at most 63 bytes, encoding succeeds and decoding the encoding at offset 0
(with enough fuel for the label count) returns the name itself together
with the full length of the encoding. -/
theorem name_roundtrip (n : List Char)
    (hne : ∀ l ∈ splitDot n, l ≠ [])
    (hlen : ∀ l ∈ splitDot n, l.length ≤ 63)
    (hascii : ∀ l ∈ splitDot n, ∀ c ∈ l, c.toNat < 128)
    (fuel : Nat) (hfuel : (splitDot n).length < fuel) :
    (pack_domain_name n).isSome = true ∧
      ∀ bs, pack_domain_name n = some bs →
        unpack_domain_name bs 0 fuel = some (n, bs.length) := by
  obtain ⟨body, hb⟩ := pack_labels_isSome (splitDot n)
    (fun l hl => by have := hlen l hl; omega) hascii
  have hp : pack_domain_name n = some (body ++ [0]) := by
    simp [pack_domain_name, hb]
  refine ⟨by simp [hp], ?_⟩
  intro bs hbs
  rw [hp] at hbs
  simp only [Option.some.injEq] at hbs
  subst hbs
  unfold unpack_domain_name
  have hd := decode_encoded (splitDot n) [] [] [] fuel body hb hne hlen
    hascii hfuel
  simp only [List.nil_append, List.length_nil, Nat.zero_add] at hd
  rw [hd, joinParts_eq_joinDot _ hne, joinDot_splitDot]
  simp

/-- Witness for C1 at the concrete name "example.com". -/
theorem name_roundtrip_witness :
    unpack_domain_name
        [7, 101, 120, 97, 109, 112, 108, 101, 3, 99, 111, 109, 0] 0 3
      = some (['e', 'x', 'a', 'm', 'p', 'l', 'e', '.', 'c', 'o', 'm'], 13) :=
  (name_roundtrip ['e', 'x', 'a', 'm', 'p', 'l', 'e', '.', 'c', 'o', 'm']
    (by decide) (by decide) (by decide) 3 (by decide)).2 _ (by decide)

/-- C5: Header codec round trip — for every header whose fields lie in their
declared bit widths, unpacking the packed 12 bytes returns the header
unchanged, field by field. -/
theorem header_roundtrip (h : DNSHeader)
    (hid : h.id < 65536) (hqr : h.qr < 2) (hop : h.opcode < 16)
    (haa : h.aa < 2) (htc : h.tc < 2) (hrd : h.rd < 2) (hra : h.ra < 2)
    (hz : h.z < 8) (hrc : h.rcode < 16) (hqd : h.qdcount < 65536)
    (han : h.ancount < 65536) (hns : h.nscount < 65536)
    (har : h.arcount < 65536) :
    (DNSHeader.pack h).bind DNSHeader.unpack = some h := by
  obtain ⟨hb, hp, hbl, hu⟩ := header_pack_unpack h hid hqr hop haa htc hrd
    hra hz hrc hqd han hns har
  rw [hp]
  show DNSHeader.unpack hb = some h
  have h0 := hu []
  rwa [List.append_nil] at h0

/-- Witness for C5 at the header of the spec scenario (id 1234, rd set,
one question). -/
theorem header_roundtrip_witness :
    (DNSHeader.pack ⟨1234, 0, 0, 0, 0, 1, 0, 0, 0, 1, 0, 0, 0⟩).bind
        DNSHeader.unpack
      = some ⟨1234, 0, 0, 0, 0, 1, 0, 0, 0, 1, 0, 0, 0⟩ :=
  header_roundtrip ⟨1234, 0, 0, 0, 0, 1, 0, 0, 0, 1, 0, 0, 0⟩
    (by decide) (by decide) (by decide) (by decide) (by decide) (by decide)
    (by decide) (by decide) (by decide) (by decide) (by decide) (by decide)
    (by decide)

theorem name_decode_at (n : List Char) (nb : List Nat)
    (hnb : pack_domain_name n = some nb)
    (hne : ∀ l ∈ splitDot n, l ≠ [])
    (hlen : ∀ l ∈ splitDot n, l.length ≤ 63)
    (hascii : ∀ l ∈ splitDot n, ∀ c ∈ l, c.toNat < 128)
    (pre tail : List Nat) (fuel : Nat)
    (hfuel : (splitDot n).length < fuel) :
    unpack_domain_name (pre ++ (nb ++ tail)) pre.length fuel
      = some (n, pre.length + nb.length) := by
  simp only [pack_domain_name, Option.bind_eq_bind] at hnb
  cases hb : pack_labels (splitDot n) with
  | none => rw [hb] at hnb; simp at hnb
  | some body =>
    rw [hb] at hnb
    simp only [Option.some_bind, Option.pure_def, Option.some.injEq] at hnb
    subst hnb
    unfold unpack_domain_name
    have hd := decode_encoded (splitDot n) pre tail [] fuel body hb hne hlen
      hascii hfuel
    have hbuf : pre ++ (body ++ 0 :: tail) = pre ++ ((body ++ [0]) ++ tail) :=
      by simp
    rw [hbuf] at hd
    simp only [List.nil_append] at hd
    rw [hd, joinParts_eq_joinDot _ hne, joinDot_splitDot]
    simp
    omega

theorem question_unpack_of_pack (q : DNSQuestion) (qb : List Nat)
    (hpack : DNSQuestion.pack q = some qb)
    (hne : ∀ l ∈ splitDot q.name, l ≠ [])
    (hlen : ∀ l ∈ splitDot q.name, l.length ≤ 63)
    (hascii : ∀ l ∈ splitDot q.name, ∀ c ∈ l, c.toNat < 128)
    (pre rest : List Nat) (fuel : Nat)
    (hfuel : (splitDot q.name).length < fuel) :
    DNSQuestion.unpack (pre ++ (qb ++ rest)) pre.length fuel
      = some (q, pre.length + qb.length) := by
  simp only [DNSQuestion.pack, Option.bind_eq_bind] at hpack
  cases hnb : pack_domain_name q.name with
  | none => rw [hnb] at hpack; simp at hpack
  | some nb =>
    rw [hnb] at hpack
    by_cases hqt : q.qtype < 65536
    · by_cases hqc : q.qclass < 65536
      · simp only [u16be, if_pos hqt, if_pos hqc, Option.some_bind,
          Option.pure_def, Option.some.injEq] at hpack
        subst hpack
        have hname := name_decode_at q.name nb hnb hne hlen hascii pre
          (q.qtype / 256 :: q.qtype % 256 :: q.qclass / 256 ::
            q.qclass % 256 :: rest) fuel hfuel
        have hbuf : pre ++ (nb ++ (q.qtype / 256 :: q.qtype % 256 ::
            q.qclass / 256 :: q.qclass % 256 :: rest))
            = pre ++ ((nb ++ [q.qtype / 256, q.qtype % 256] ++
              [q.qclass / 256, q.qclass % 256]) ++ rest) := by simp
        rw [hbuf] at hname
        have hr1 : readU16 (pre ++ ((nb ++ [q.qtype / 256, q.qtype % 256] ++
            [q.qclass / 256, q.qclass % 256]) ++ rest))
            (pre.length + nb.length) = some q.qtype := by
          have hr := readU16_append' (pre ++ nb) (q.qclass / 256 ::
            q.qclass % 256 :: rest) (q.qtype / 256) (q.qtype % 256)
            (pre.length + nb.length) (by simp)
          have : q.qtype / 256 * 256 + q.qtype % 256 = q.qtype := by omega
          rw [this] at hr
          have hb2 : (pre ++ nb) ++ (q.qtype / 256 :: q.qtype % 256 ::
              q.qclass / 256 :: q.qclass % 256 :: rest)
              = pre ++ ((nb ++ [q.qtype / 256, q.qtype % 256] ++
                [q.qclass / 256, q.qclass % 256]) ++ rest) := by simp
          rwa [hb2] at hr
        have hr2 : readU16 (pre ++ ((nb ++ [q.qtype / 256, q.qtype % 256] ++
            [q.qclass / 256, q.qclass % 256]) ++ rest))
            (pre.length + nb.length + 2) = some q.qclass := by
          have hr := readU16_append' (pre ++ nb ++ [q.qtype / 256,
            q.qtype % 256]) (rest) (q.qclass / 256) (q.qclass % 256)
            (pre.length + nb.length + 2) (by simp; omega)
          have : q.qclass / 256 * 256 + q.qclass % 256 = q.qclass := by omega
          rw [this] at hr
          have hb2 : (pre ++ nb ++ [q.qtype / 256, q.qtype % 256]) ++
              (q.qclass / 256 :: q.qclass % 256 :: rest)
              = pre ++ ((nb ++ [q.qtype / 256, q.qtype % 256] ++
                [q.qclass / 256, q.qclass % 256]) ++ rest) := by simp
          rwa [hb2] at hr
        simp only [DNSQuestion.unpack, Option.bind_eq_bind, hname,
          Option.some_bind, hr1, hr2, Option.pure_def, Option.some.injEq]
        have hq : (⟨q.name, q.qtype, q.qclass⟩ : DNSQuestion) = q := rfl
        rw [hq]
        have hl : (nb ++ [q.qtype / 256, q.qtype % 256] ++
            [q.qclass / 256, q.qclass % 256]).length = nb.length + 4 := by
          simp
        rw [hl]
        have harith : pre.length + nb.length + 2 + 2
            = pre.length + (nb.length + 4) := by omega
        rw [harith]
      · simp [u16be, hqc] at hpack
    · simp [u16be, hqt] at hpack

theorem record_unpack_of_pack (r : DNSRecord) (rb : List Nat)
    (hpack : DNSRecord.pack r = some rb)
    (hne : ∀ l ∈ splitDot r.name, l ≠ [])
    (hlen : ∀ l ∈ splitDot r.name, l.length ≤ 63)
    (hascii : ∀ l ∈ splitDot r.name, ∀ c ∈ l, c.toNat < 128)
    (pre rest : List Nat) (fuel : Nat)
    (hfuel : (splitDot r.name).length < fuel) :
    DNSRecord.unpack (pre ++ (rb ++ rest)) pre.length fuel
      = some (r, pre.length + rb.length) := by
  simp only [DNSRecord.pack, Option.bind_eq_bind] at hpack
  cases hnb : pack_domain_name r.name with
  | none => rw [hnb] at hpack; simp at hpack
  | some nb =>
    rw [hnb] at hpack
    by_cases ht : r.record_type < 65536
    case neg => simp [u16be, ht] at hpack
    by_cases hc : r.record_class < 65536
    case neg => simp [u16be, hc] at hpack
    by_cases httl : r.ttl < 4294967296
    case neg => simp [u16be, u32be, ht, hc, httl] at hpack
    by_cases hdl : r.rdata.length < 65536
    case neg => simp [u16be, u32be, ht, hc, httl, hdl] at hpack
    simp only [u16be, u32be, if_pos ht, if_pos hc, if_pos httl, if_pos hdl,
      Option.some_bind, Option.pure_def, Option.some.injEq] at hpack
    subst hpack
    have hname := name_decode_at r.name nb hnb hne hlen hascii pre
      (r.record_type / 256 :: r.record_type % 256 ::
        r.record_class / 256 :: r.record_class % 256 ::
        r.ttl / 16777216 :: r.ttl / 65536 % 256 :: r.ttl / 256 % 256 ::
        r.ttl % 256 :: r.rdata.length / 256 :: r.rdata.length % 256 ::
        (r.rdata ++ rest)) fuel hfuel
    have hbufeq : pre ++ (nb ++ (r.record_type / 256 :: r.record_type % 256 ::
        r.record_class / 256 :: r.record_class % 256 ::
        r.ttl / 16777216 :: r.ttl / 65536 % 256 :: r.ttl / 256 % 256 ::
        r.ttl % 256 :: r.rdata.length / 256 :: r.rdata.length % 256 ::
        (r.rdata ++ rest)))
        = pre ++ ((nb ++ [r.record_type / 256, r.record_type % 256] ++
          [r.record_class / 256, r.record_class % 256] ++
          [r.ttl / 16777216, r.ttl / 65536 % 256, r.ttl / 256 % 256,
            r.ttl % 256] ++
          [r.rdata.length / 256, r.rdata.length % 256] ++ r.rdata) ++ rest) :=
      by simp
    rw [hbufeq] at hname
    have hr1 : readU16 (pre ++ ((nb ++ [r.record_type / 256,
        r.record_type % 256] ++ [r.record_class / 256, r.record_class % 256]
        ++ [r.ttl / 16777216, r.ttl / 65536 % 256, r.ttl / 256 % 256,
          r.ttl % 256] ++ [r.rdata.length / 256, r.rdata.length % 256] ++
        r.rdata) ++ rest)) (pre.length + nb.length)
        = some r.record_type := by
      have hr := readU16_append' (pre ++ nb)
        (r.record_class / 256 :: r.record_class % 256 ::
          r.ttl / 16777216 :: r.ttl / 65536 % 256 :: r.ttl / 256 % 256 ::
          r.ttl % 256 :: r.rdata.length / 256 :: r.rdata.length % 256 ::
          (r.rdata ++ rest)) (r.record_type / 256) (r.record_type % 256)
        (pre.length + nb.length) (by simp)
      have hv : r.record_type / 256 * 256 + r.record_type % 256
          = r.record_type := by omega
      rw [hv] at hr
      rw [show (pre ++ nb) ++ (r.record_type / 256 :: r.record_type % 256 ::
        r.record_class / 256 :: r.record_class % 256 ::
        r.ttl / 16777216 :: r.ttl / 65536 % 256 :: r.ttl / 256 % 256 ::
        r.ttl % 256 :: r.rdata.length / 256 :: r.rdata.length % 256 ::
        (r.rdata ++ rest)) = pre ++ ((nb ++ [r.record_type / 256,
          r.record_type % 256] ++ [r.record_class / 256,
          r.record_class % 256] ++ [r.ttl / 16777216, r.ttl / 65536 % 256,
          r.ttl / 256 % 256, r.ttl % 256] ++ [r.rdata.length / 256,
          r.rdata.length % 256] ++ r.rdata) ++ rest) from by simp] at hr
      exact hr
    have hr2 : readU16 (pre ++ ((nb ++ [r.record_type / 256,
        r.record_type % 256] ++ [r.record_class / 256, r.record_class % 256]
        ++ [r.ttl / 16777216, r.ttl / 65536 % 256, r.ttl / 256 % 256,
          r.ttl % 256] ++ [r.rdata.length / 256, r.rdata.length % 256] ++
        r.rdata) ++ rest)) (pre.length + nb.length + 2)
        = some r.record_class := by
      have hr := readU16_append' (pre ++ nb ++ [r.record_type / 256,
        r.record_type % 256])
        (r.ttl / 16777216 :: r.ttl / 65536 % 256 :: r.ttl / 256 % 256 ::
          r.ttl % 256 :: r.rdata.length / 256 :: r.rdata.length % 256 ::
          (r.rdata ++ rest)) (r.record_class / 256) (r.record_class % 256)
        (pre.length + nb.length + 2) (by simp; omega)
      have hv : r.record_class / 256 * 256 + r.record_class % 256
          = r.record_class := by omega
      rw [hv] at hr
      rw [show (pre ++ nb ++ [r.record_type / 256, r.record_type % 256]) ++
        (r.record_class / 256 :: r.record_class % 256 ::
        r.ttl / 16777216 :: r.ttl / 65536 % 256 :: r.ttl / 256 % 256 ::
        r.ttl % 256 :: r.rdata.length / 256 :: r.rdata.length % 256 ::
        (r.rdata ++ rest)) = pre ++ ((nb ++ [r.record_type / 256,
          r.record_type % 256] ++ [r.record_class / 256,
          r.record_class % 256] ++ [r.ttl / 16777216, r.ttl / 65536 % 256,
          r.ttl / 256 % 256, r.ttl % 256] ++ [r.rdata.length / 256,
          r.rdata.length % 256] ++ r.rdata) ++ rest) from by simp] at hr
      exact hr
    have hr3 : readU32 (pre ++ ((nb ++ [r.record_type / 256,
        r.record_type % 256] ++ [r.record_class / 256, r.record_class % 256]
        ++ [r.ttl / 16777216, r.ttl / 65536 % 256, r.ttl / 256 % 256,
          r.ttl % 256] ++ [r.rdata.length / 256, r.rdata.length % 256] ++
        r.rdata) ++ rest)) (pre.length + nb.length + 4)
        = some r.ttl := by
      have hr := readU32_append' (pre ++ nb ++ [r.record_type / 256,
        r.record_type % 256] ++ [r.record_class / 256, r.record_class % 256])
        (r.rdata.length / 256 :: r.rdata.length % 256 :: (r.rdata ++ rest))
        (r.ttl / 16777216) (r.ttl / 65536 % 256) (r.ttl / 256 % 256)
        (r.ttl % 256) (pre.length + nb.length + 4) (by simp; omega)
      have hv : r.ttl / 16777216 * 16777216 + r.ttl / 65536 % 256 * 65536 +
          r.ttl / 256 % 256 * 256 + r.ttl % 256 = r.ttl := by omega
      rw [hv] at hr
      rw [show (pre ++ nb ++ [r.record_type / 256, r.record_type % 256] ++
        [r.record_class / 256, r.record_class % 256]) ++
        (r.ttl / 16777216 :: r.ttl / 65536 % 256 :: r.ttl / 256 % 256 ::
        r.ttl % 256 :: r.rdata.length / 256 :: r.rdata.length % 256 ::
        (r.rdata ++ rest)) = pre ++ ((nb ++ [r.record_type / 256,
          r.record_type % 256] ++ [r.record_class / 256,
          r.record_class % 256] ++ [r.ttl / 16777216, r.ttl / 65536 % 256,
          r.ttl / 256 % 256, r.ttl % 256] ++ [r.rdata.length / 256,
          r.rdata.length % 256] ++ r.rdata) ++ rest) from by simp] at hr
      exact hr
    have hr4 : readU16 (pre ++ ((nb ++ [r.record_type / 256,
        r.record_type % 256] ++ [r.record_class / 256, r.record_class % 256]
        ++ [r.ttl / 16777216, r.ttl / 65536 % 256, r.ttl / 256 % 256,
          r.ttl % 256] ++ [r.rdata.length / 256, r.rdata.length % 256] ++
        r.rdata) ++ rest)) (pre.length + nb.length + 8)
        = some r.rdata.length := by
      have hr := readU16_append' (pre ++ nb ++ [r.record_type / 256,
        r.record_type % 256] ++ [r.record_class / 256, r.record_class % 256]
        ++ [r.ttl / 16777216, r.ttl / 65536 % 256, r.ttl / 256 % 256,
          r.ttl % 256]) (r.rdata ++ rest) (r.rdata.length / 256)
        (r.rdata.length % 256) (pre.length + nb.length + 8) (by simp; omega)
      have hv : r.rdata.length / 256 * 256 + r.rdata.length % 256
          = r.rdata.length := by omega
      rw [hv] at hr
      rw [show (pre ++ nb ++ [r.record_type / 256, r.record_type % 256] ++
        [r.record_class / 256, r.record_class % 256] ++
        [r.ttl / 16777216, r.ttl / 65536 % 256, r.ttl / 256 % 256,
          r.ttl % 256]) ++ (r.rdata.length / 256 :: r.rdata.length % 256 ::
        (r.rdata ++ rest)) = pre ++ ((nb ++ [r.record_type / 256,
          r.record_type % 256] ++ [r.record_class / 256,
          r.record_class % 256] ++ [r.ttl / 16777216, r.ttl / 65536 % 256,
          r.ttl / 256 % 256, r.ttl % 256] ++ [r.rdata.length / 256,
          r.rdata.length % 256] ++ r.rdata) ++ rest) from by simp] at hr
      exact hr
    have hsl : sliceBytes (pre ++ ((nb ++ [r.record_type / 256,
        r.record_type % 256] ++ [r.record_class / 256, r.record_class % 256]
        ++ [r.ttl / 16777216, r.ttl / 65536 % 256, r.ttl / 256 % 256,
          r.ttl % 256] ++ [r.rdata.length / 256, r.rdata.length % 256] ++
        r.rdata) ++ rest)) (pre.length + nb.length + 10)
        (pre.length + nb.length + 10 + r.rdata.length) = r.rdata := by
      have hs := sliceBytes_append' (pre ++ nb ++ [r.record_type / 256,
        r.record_type % 256] ++ [r.record_class / 256, r.record_class % 256]
        ++ [r.ttl / 16777216, r.ttl / 65536 % 256, r.ttl / 256 % 256,
          r.ttl % 256] ++ [r.rdata.length / 256, r.rdata.length % 256])
        r.rdata rest (pre.length + nb.length + 10)
        (pre.length + nb.length + 10 + r.rdata.length) (by simp; omega)
        (by simp; omega)
      rw [show (pre ++ nb ++ [r.record_type / 256, r.record_type % 256] ++
        [r.record_class / 256, r.record_class % 256] ++
        [r.ttl / 16777216, r.ttl / 65536 % 256, r.ttl / 256 % 256,
          r.ttl % 256] ++ [r.rdata.length / 256, r.rdata.length % 256]) ++
        (r.rdata ++ rest) = pre ++ ((nb ++ [r.record_type / 256,
          r.record_type % 256] ++ [r.record_class / 256,
          r.record_class % 256] ++ [r.ttl / 16777216, r.ttl / 65536 % 256,
          r.ttl / 256 % 256, r.ttl % 256] ++ [r.rdata.length / 256,
          r.rdata.length % 256] ++ r.rdata) ++ rest) from by simp] at hs
      exact hs
    have harith2 : pre.length + nb.length + 2 + 2 = pre.length + nb.length
        + 4 := by omega
    have harith3 : pre.length + nb.length + 4 + 4 = pre.length + nb.length
        + 8 := by omega
    have harith4 : pre.length + nb.length + 8 + 2 = pre.length + nb.length
        + 10 := by omega
    simp only [DNSRecord.unpack, Option.bind_eq_bind, hname,
      Option.some_bind, hr1, harith2, hr2, harith3, hr3, harith4, hr4, hsl,
      Option.pure_def, Option.some.injEq]
    have hrr : (⟨r.name, r.record_type, r.record_class, r.ttl, r.rdata⟩ :
        DNSRecord) = r := rfl
    rw [hrr]
    have hl : (nb ++ [r.record_type / 256, r.record_type % 256] ++
        [r.record_class / 256, r.record_class % 256] ++
        [r.ttl / 16777216, r.ttl / 65536 % 256, r.ttl / 256 % 256,
          r.ttl % 256] ++ [r.rdata.length / 256, r.rdata.length % 256] ++
        r.rdata).length = nb.length + 10 + r.rdata.length := by
      simp
      omega
    rw [hl]
    have harith5 : pre.length + nb.length + 10 + r.rdata.length
        = pre.length + (nb.length + 10 + r.rdata.length) := by omega
    rw [harith5]

theorem question_pack_isSome (q : DNSQuestion)
    (hlen : ∀ l ∈ splitDot q.name, l.length ≤ 63)
    (hascii : ∀ l ∈ splitDot q.name, ∀ c ∈ l, c.toNat < 128)
    (hqt : q.qtype < 65536) (hqc : q.qclass < 65536) :
    ∃ qb, DNSQuestion.pack q = some qb := by
  obtain ⟨body, hb⟩ := pack_labels_isSome (splitDot q.name)
    (fun l hl => by have := hlen l hl; omega) hascii
  apply Option.isSome_iff_exists.mp
  simp [DNSQuestion.pack, pack_domain_name, hb, u16be, hqt, hqc]

theorem record_pack_isSome (r : DNSRecord)
    (hlen : ∀ l ∈ splitDot r.name, l.length ≤ 63)
    (hascii : ∀ l ∈ splitDot r.name, ∀ c ∈ l, c.toNat < 128)
    (ht : r.record_type < 65536) (hc : r.record_class < 65536)
    (httl : r.ttl < 4294967296) (hdl : r.rdata.length < 65536) :
    ∃ rb, DNSRecord.pack r = some rb := by
  obtain ⟨body, hb⟩ := pack_labels_isSome (splitDot r.name)
    (fun l hl => by have := hlen l hl; omega) hascii
  apply Option.isSome_iff_exists.mp
  simp [DNSRecord.pack, pack_domain_name, hb, u16be, u32be, ht, hc, httl,
    hdl]

theorem pack_list_isSome {α : Type} (packFn : α → Option (List Nat)) :
    ∀ xs : List α, (∀ x ∈ xs, ∃ b, packFn x = some b) →
      ∃ bs, pack_list packFn xs = some bs := by
  intro xs
  induction xs with
  | nil => exact fun _ => ⟨[], rfl⟩
  | cons x xs ih =>
    intro h
    obtain ⟨b, hb⟩ := h x (by simp)
    obtain ⟨bs, hbs⟩ := ih (fun y hy => h y (by simp [hy]))
    exact ⟨b ++ bs, by simp [pack_list, hb, hbs]⟩

theorem unpack_questions_of_pack :
    ∀ (qs : List DNSQuestion) (qsb pre rest : List Nat) (fuel : Nat),
    pack_list DNSQuestion.pack qs = some qsb →
    (∀ q ∈ qs, ∀ l ∈ splitDot q.name, l ≠ []) →
    (∀ q ∈ qs, ∀ l ∈ splitDot q.name, l.length ≤ 63) →
    (∀ q ∈ qs, ∀ l ∈ splitDot q.name, ∀ c ∈ l, c.toNat < 128) →
    (∀ q ∈ qs, (splitDot q.name).length < fuel) →
    unpack_questions (pre ++ (qsb ++ rest)) fuel qs.length pre.length
      = some (qs, pre.length + qsb.length) := by
  intro qs
  induction qs with
  | nil =>
    intro qsb pre rest fuel hpack _ _ _ _
    simp only [pack_list, Option.some.injEq] at hpack
    subst hpack
    simp [unpack_questions]
  | cons q qs ih =>
    intro qsb pre rest fuel hpack hne hlen hascii hfuel
    simp only [pack_list, Option.bind_eq_bind] at hpack
    cases hqb : DNSQuestion.pack q with
    | none => rw [hqb] at hpack; simp at hpack
    | some qb =>
      rw [hqb] at hpack
      cases hqsb : pack_list DNSQuestion.pack qs with
      | none => rw [hqsb] at hpack; simp at hpack
      | some qsb' =>
        rw [hqsb] at hpack
        simp only [Option.some_bind, Option.pure_def, Option.some.injEq]
          at hpack
        subst hpack
        have hq1 := question_unpack_of_pack q qb hqb (hne q (by simp))
          (hlen q (by simp)) (hascii q (by simp)) pre (qsb' ++ rest) fuel
          (hfuel q (by simp))
        have hb1 : pre ++ (qb ++ (qsb' ++ rest))
            = pre ++ ((qb ++ qsb') ++ rest) := by simp
        rw [hb1] at hq1
        have hrest := ih qsb' (pre ++ qb) rest fuel hqsb
          (fun x hx => hne x (by simp [hx]))
          (fun x hx => hlen x (by simp [hx]))
          (fun x hx => hascii x (by simp [hx]))
          (fun x hx => hfuel x (by simp [hx]))
        have hb2 : (pre ++ qb) ++ (qsb' ++ rest)
            = pre ++ ((qb ++ qsb') ++ rest) := by simp
        have ho2 : (pre ++ qb).length = pre.length + qb.length := by simp
        rw [hb2, ho2] at hrest
        simp only [List.length_cons, unpack_questions, Option.bind_eq_bind,
          hq1, Option.some_bind, hrest, Option.pure_def, Option.some.injEq]
        rw [Nat.add_assoc, List.length_append]

theorem unpack_records_of_pack :
    ∀ (rs : List DNSRecord) (rsb pre rest : List Nat) (fuel : Nat),
    pack_list DNSRecord.pack rs = some rsb →
    (∀ r ∈ rs, ∀ l ∈ splitDot r.name, l ≠ []) →
    (∀ r ∈ rs, ∀ l ∈ splitDot r.name, l.length ≤ 63) →
    (∀ r ∈ rs, ∀ l ∈ splitDot r.name, ∀ c ∈ l, c.toNat < 128) →
    (∀ r ∈ rs, (splitDot r.name).length < fuel) →
    unpack_records (pre ++ (rsb ++ rest)) fuel rs.length pre.length
      = some (rs, pre.length + rsb.length) := by
  intro rs
  induction rs with
  | nil =>
    intro rsb pre rest fuel hpack _ _ _ _
    simp only [pack_list, Option.some.injEq] at hpack
    subst hpack
    simp [unpack_records]
  | cons r rs ih =>
    intro rsb pre rest fuel hpack hne hlen hascii hfuel
    simp only [pack_list, Option.bind_eq_bind] at hpack
    cases hrb : DNSRecord.pack r with
    | none => rw [hrb] at hpack; simp at hpack
    | some rb =>
      rw [hrb] at hpack
      cases hrsb : pack_list DNSRecord.pack rs with
      | none => rw [hrsb] at hpack; simp at hpack
      | some rsb' =>
        rw [hrsb] at hpack
        simp only [Option.some_bind, Option.pure_def, Option.some.injEq]
          at hpack
        subst hpack
        have hr1 := record_unpack_of_pack r rb hrb (hne r (by simp))
          (hlen r (by simp)) (hascii r (by simp)) pre (rsb' ++ rest) fuel
          (hfuel r (by simp))
        have hb1 : pre ++ (rb ++ (rsb' ++ rest))
            = pre ++ ((rb ++ rsb') ++ rest) := by simp
        rw [hb1] at hr1
        have hrest := ih rsb' (pre ++ rb) rest fuel hrsb
          (fun x hx => hne x (by simp [hx]))
          (fun x hx => hlen x (by simp [hx]))
          (fun x hx => hascii x (by simp [hx]))
          (fun x hx => hfuel x (by simp [hx]))
        have hb2 : (pre ++ rb) ++ (rsb' ++ rest)
            = pre ++ ((rb ++ rsb') ++ rest) := by simp
        have ho2 : (pre ++ rb).length = pre.length + rb.length := by simp
        rw [hb2, ho2] at hrest
        simp only [List.length_cons, unpack_records, Option.bind_eq_bind,
          hr1, Option.some_bind, hrest, Option.pure_def, Option.some.injEq]
        rw [Nat.add_assoc, List.length_append]

/-- C2 (amended): Message codec round trip — for every message whose header
counts match its question/answer lists, whose header fields lie in their bit
widths, and whose questions and answers are encodable (names with non-empty
ASCII labels of at most 63 bytes, 16-bit type/class fields, 32-bit ttl,
16-bit rdata length), unpacking the packing (with enough fuel for every
name) returns the message unchanged: same header counts, same questions in
order, same answers in order. -/
theorem message_roundtrip (m : DNSMessage)
    (hqd : m.header.qdcount = m.questions.length)
    (han : m.header.ancount = m.answers.length)
    (hid : m.header.id < 65536) (hqr : m.header.qr < 2)
    (hop : m.header.opcode < 16) (haa : m.header.aa < 2)
    (htc : m.header.tc < 2) (hrd : m.header.rd < 2) (hra : m.header.ra < 2)
    (hz : m.header.z < 8) (hrc : m.header.rcode < 16)
    (hns : m.header.nscount < 65536) (har : m.header.arcount < 65536)
    (hql : m.questions.length < 65536) (hal : m.answers.length < 65536)
    (hqne : ∀ q ∈ m.questions, ∀ l ∈ splitDot q.name, l ≠ [])
    (hqlen : ∀ q ∈ m.questions, ∀ l ∈ splitDot q.name, l.length ≤ 63)
    (hqascii : ∀ q ∈ m.questions, ∀ l ∈ splitDot q.name, ∀ c ∈ l,
      c.toNat < 128)
    (hqt : ∀ q ∈ m.questions, q.qtype < 65536)
    (hqc : ∀ q ∈ m.questions, q.qclass < 65536)
    (hane : ∀ r ∈ m.answers, ∀ l ∈ splitDot r.name, l ≠ [])
    (halen : ∀ r ∈ m.answers, ∀ l ∈ splitDot r.name, l.length ≤ 63)
    (haascii : ∀ r ∈ m.answers, ∀ l ∈ splitDot r.name, ∀ c ∈ l,
      c.toNat < 128)
    (hat : ∀ r ∈ m.answers, r.record_type < 65536)
    (hac : ∀ r ∈ m.answers, r.record_class < 65536)
    (hattl : ∀ r ∈ m.answers, r.ttl < 4294967296)
    (hadl : ∀ r ∈ m.answers, r.rdata.length < 65536)
    (fuel : Nat)
    (hfq : ∀ q ∈ m.questions, (splitDot q.name).length < fuel)
    (hfa : ∀ r ∈ m.answers, (splitDot r.name).length < fuel) :
    (DNSMessage.pack m).bind (fun bs => DNSMessage.unpack bs fuel)
      = some m := by
  obtain ⟨hb, hhp, hhl, hhu⟩ := header_pack_unpack m.header hid hqr hop haa
    htc hrd hra hz hrc (by omega) (by omega) hns har
  obtain ⟨qsb, hqsb⟩ := pack_list_isSome DNSQuestion.pack m.questions
    (fun q hq => question_pack_isSome q (hqlen q hq) (hqascii q hq)
      (hqt q hq) (hqc q hq))
  obtain ⟨ansb, hansb⟩ := pack_list_isSome DNSRecord.pack m.answers
    (fun r hr => record_pack_isSome r (halen r hr) (haascii r hr)
      (hat r hr) (hac r hr) (hattl r hr) (hadl r hr))
  have hpm : DNSMessage.pack m = some (hb ++ (qsb ++ ansb)) := by
    simp [DNSMessage.pack, hhp, hqsb, hansb]
  rw [hpm]
  show DNSMessage.unpack (hb ++ (qsb ++ ansb)) fuel = some m
  have hqs := unpack_questions_of_pack m.questions qsb hb ansb fuel hqsb
    hqne hqlen hqascii hfq
  rw [hhl] at hqs
  have hans := unpack_records_of_pack m.answers ansb (hb ++ qsb) [] fuel
    hansb hane halen haascii hfa
  have hb3 : (hb ++ qsb) ++ (ansb ++ []) = hb ++ (qsb ++ ansb) := by simp
  have ho3 : (hb ++ qsb).length = 12 + qsb.length := by simp [hhl]
  rw [hb3, ho3] at hans
  simp only [DNSMessage.unpack, Option.bind_eq_bind, hhu (qsb ++ ansb),
    Option.some_bind, hqd, hqs, han, hans, Option.pure_def,
    Option.some.injEq]

/-- Witness for C2 (amended) at a concrete one-question, one-answer
message for the name "abc.de". -/
theorem message_roundtrip_witness :
    (DNSMessage.pack ⟨⟨77, 0, 0, 0, 0, 1, 0, 0, 0, 1, 1, 0, 0⟩,
        [⟨['a', 'b', 'c', '.', 'd', 'e'], 1, 1⟩],
        [⟨['a', 'b', 'c', '.', 'd', 'e'], 1, 1, 60, [1, 2, 3, 4]⟩]⟩).bind
        (fun bs => DNSMessage.unpack bs 3)
      = some ⟨⟨77, 0, 0, 0, 0, 1, 0, 0, 0, 1, 1, 0, 0⟩,
        [⟨['a', 'b', 'c', '.', 'd', 'e'], 1, 1⟩],
        [⟨['a', 'b', 'c', '.', 'd', 'e'], 1, 1, 60, [1, 2, 3, 4]⟩]⟩ :=
  message_roundtrip ⟨⟨77, 0, 0, 0, 0, 1, 0, 0, 0, 1, 1, 0, 0⟩,
      [⟨['a', 'b', 'c', '.', 'd', 'e'], 1, 1⟩],
      [⟨['a', 'b', 'c', '.', 'd', 'e'], 1, 1, 60, [1, 2, 3, 4]⟩]⟩
    (by decide) (by decide) (by decide) (by decide) (by decide) (by decide)
    (by decide) (by decide) (by decide) (by decide) (by decide) (by decide)
    (by decide) (by decide) (by decide) (by decide) (by decide) (by decide)
    (by decide) (by decide) (by decide) (by decide) (by decide) (by decide)
    (by decide) (by decide) (by decide) 3 (by decide) (by decide)

/-- Counterexample for C2 as stated: a message whose header counts match its
lists (qdcount 1 for one question, ancount 0 for no answers) but whose
question name "." round trips to a different question — the claim needs
name well-formedness hypotheses beyond matching counts. -/
theorem message_roundtrip_cex :
    (DNSMessage.pack ⟨⟨0, 0, 0, 0, 0, 0, 0, 0, 0, 1, 0, 0, 0⟩,
        [⟨['.'], 1, 1⟩], []⟩).bind (fun bs => DNSMessage.unpack bs 10)
      = some ⟨⟨0, 0, 0, 0, 0, 0, 0, 0, 0, 1, 0, 0, 0⟩, [⟨[], 0, 1⟩], []⟩ ∧
    (⟨[], 0, 1⟩ : DNSQuestion) ≠ ⟨['.'], 1, 1⟩ := by
  constructor
  · decide
  · decide

/-! Section: Record rdata truncation (Python slices clamp) -/

theorem readU16_bound (data : List Nat) (i v : Nat)
    (h : readU16 data i = some v) : i + 1 < data.length := by
  simp only [readU16, Option.bind_eq_bind] at h
  cases h0 : data[i]? with
  | none => rw [h0] at h; simp at h
  | some a =>
    rw [h0] at h
    cases h1 : data[i + 1]? with
    | none => rw [h1] at h; simp at h
    | some b => exact (List.getElem?_eq_some.mp h1).1

theorem readU16_some_of_lt (data : List Nat) (i : Nat)
    (h : i + 1 < data.length) : ∃ v, readU16 data i = some v := by
  simp only [readU16, Option.bind_eq_bind]
  rw [List.getElem?_eq_getElem (by omega), List.getElem?_eq_getElem h]
  exact ⟨_, rfl⟩

theorem record_unpack_truncated (data : List Nat) (offset fuel : Nat)
    (nm : List Char) (o t c w dl : Nat)
    (hname : unpack_domain_name data offset fuel = some (nm, o))
    (ht : readU16 data o = some t) (hc : readU16 data (o + 2) = some c)
    (hw : readU32 data (o + 4) = some w)
    (hdl : readU16 data (o + 8) = some dl)
    (hover : data.length < o + 10 + dl) :
    DNSRecord.unpack data offset fuel
      = some (⟨nm, t, c, w, data.drop (o + 10)⟩, o + 10 + dl) := by
  have hsl : sliceBytes data (o + 10) (o + 10 + dl) = data.drop (o + 10) := by
    unfold sliceBytes
    have harith : o + 10 + dl - (o + 10) = dl := by omega
    rw [harith]
    apply List.take_of_length_le
    rw [List.length_drop]
    omega
  simp only [DNSRecord.unpack, Option.bind_eq_bind, hname, Option.some_bind,
    ht, hc, hw, hdl, hsl, Option.pure_def]

/-- C10: Silent rdata truncation — when a record's name and its 10 fixed
bytes decode but the declared rdata length `dl` overruns the buffer,
`DNSRecord.unpack` still succeeds: the rdata is just the bytes actually
remaining (strictly fewer than declared) and the returned offset, the fixed
part's end plus the declared length, lies past the end of the buffer. -/
theorem record_rdata_truncation (data : List Nat) (offset fuel : Nat)
    (nm : List Char) (o t c w dl : Nat)
    (hname : unpack_domain_name data offset fuel = some (nm, o))
    (ht : readU16 data o = some t) (hc : readU16 data (o + 2) = some c)
    (hw : readU32 data (o + 4) = some w)
    (hdl : readU16 data (o + 8) = some dl)
    (hover : data.length < o + 10 + dl) :
    DNSRecord.unpack data offset fuel
        = some (⟨nm, t, c, w, data.drop (o + 10)⟩, o + 10 + dl) ∧
      (data.drop (o + 10)).length < dl ∧ data.length < o + 10 + dl := by
  refine ⟨record_unpack_truncated data offset fuel nm o t c w dl hname ht hc
    hw hdl hover, ?_, hover⟩
  have hb := readU16_bound data (o + 8) dl hdl
  rw [List.length_drop]
  omega

/-- Witness for C10 at a concrete buffer: an empty record name, fixed fields
declaring 5 rdata bytes, with zero bytes actually remaining. -/
theorem record_rdata_truncation_witness :
    DNSRecord.unpack [0, 0, 1, 0, 1, 0, 0, 0, 60, 0, 5] 0 2
        = some (⟨[], 1, 1, 60, []⟩, 16) ∧
      ([] : List Nat).length < 5 ∧
      ([0, 0, 1, 0, 1, 0, 0, 0, 60, 0, 5] : List Nat).length < 1 + 10 + 5 :=
  record_rdata_truncation [0, 0, 1, 0, 1, 0, 0, 0, 60, 0, 5] 0 2 [] 1 1 1
    60 5 (by decide) (by decide) (by decide) (by decide) (by decide)
    (by decide)

/-- Counterexample for C4 as stated: on a buffer whose record name and 10
fixed bytes decode (11 bytes, declared rdata length 5, zero bytes left),
`DNSRecord.unpack` does not fail — it returns a record. -/
theorem record_unpack_cex :
    readU16 [0, 0, 1, 0, 1, 0, 0, 0, 60, 0, 5] 9 = some 5 ∧
      ([0, 0, 1, 0, 1, 0, 0, 0, 60, 0, 5] : List Nat).length = 11 ∧
      (DNSRecord.unpack [0, 0, 1, 0, 1, 0, 0, 0, 60, 0, 5] 0 2).isSome
        = true := by
  decide

/-- C4 (amended): on an out-of-range declared rdata length,
`DNSRecord.unpack` does not raise a decode fault; it succeeds, returning
the record with rdata silently truncated to the bytes actually available. -/
theorem record_unpack_no_fault (data : List Nat) (offset fuel : Nat)
    (nm : List Char) (o t c w dl : Nat)
    (hname : unpack_domain_name data offset fuel = some (nm, o))
    (ht : readU16 data o = some t) (hc : readU16 data (o + 2) = some c)
    (hw : readU32 data (o + 4) = some w)
    (hdl : readU16 data (o + 8) = some dl)
    (hover : data.length < o + 10 + dl) :
    DNSRecord.unpack data offset fuel
      = some (⟨nm, t, c, w, data.drop (o + 10)⟩, o + 10 + dl) :=
  record_unpack_truncated data offset fuel nm o t c w dl hname ht hc hw hdl
    hover

/-- Witness for C4 (amended) at the same concrete buffer. -/
theorem record_unpack_no_fault_witness :
    DNSRecord.unpack [0, 0, 1, 0, 1, 0, 0, 0, 60, 0, 5] 0 2
      = some (⟨[], 1, 1, 60, []⟩, 16) :=
  record_unpack_no_fault [0, 0, 1, 0, 1, 0, 0, 0, 60, 0, 5] 0 2 [] 1 1 1 60
    5 (by decide) (by decide) (by decide) (by decide) (by decide) (by decide)

/-! Section: C3: encoding the empty name -/

/-- Counterexample for C3 as stated: the encoding of the empty name has
length 2, not 1 (Python splits the empty string into one empty label, so a
zero length byte precedes the zero terminator). -/
theorem empty_name_pack_cex :
    (pack_domain_name []).map List.length = some 2 ∧ (2 : Nat) ≠ 1 := by
  decide

/-- C3 (amended): encoding the empty domain name produces exactly two zero
bytes — a zero length byte for the single empty label that splitting the
empty string yields, then the zero terminator. -/
theorem empty_name_two_bytes : pack_domain_name [] = some [0, 0] := by
  decide

/-! Section: C6: compression pointer semantics -/

/-- C6: when the decoder reads a length byte whose top two bits are set, it
decodes the name at the 14-bit target offset in the same buffer, appends it
to the parts collected so far, terminates the current name, and returns the
offset exactly 2 bytes past the pointer — the target never advances the
caller's cursor. -/
theorem pointer_semantics (data : List Nat) (fuel offset : Nat)
    (name_parts : List (List Char)) (L b : Nat) (pointed_name : List Char)
    (r : Nat)
    (hL : data[offset]? = some L) (hptr : L &&& 192 = 192)
    (hb : data[offset + 1]? = some b)
    (hrec : unpack_domain_name_aux data fuel (((L &&& 63) <<< 8) ||| b) []
      = some (pointed_name, r)) :
    unpack_domain_name_aux data (fuel + 1) offset name_parts
      = some (joinParts (name_parts ++ [pointed_name]), offset + 2) := by
  simp [unpack_domain_name_aux, hL, hptr, hb, hrec]

/-- Witness for C6: the spec's example — the label "example" encoded at
offset 12, a pointer (0xC0, 12) at offset 21; decoding at the pointer
position yields "example" and the offset 23, two past the pointer. -/
theorem pointer_semantics_witness :
    unpack_domain_name_aux
        [0, 0, 0, 0, 0, 0, 0, 0, 0, 0, 0, 0,
          7, 101, 120, 97, 109, 112, 108, 101, 0, 192, 12] 9 21 []
      = some (['e', 'x', 'a', 'm', 'p', 'l', 'e'], 23) :=
  pointer_semantics
    [0, 0, 0, 0, 0, 0, 0, 0, 0, 0, 0, 0,
      7, 101, 120, 97, 109, 112, 108, 101, 0, 192, 12] 8 21 [] 192 12
    ['e', 'x', 'a', 'm', 'p', 'l', 'e'] 21
    (by decide) (by decide) (by decide) (by decide)

/-! Section: C7: the failure responder -/

/-- C7: for every decodable request, when the relay reports no response,
`create_response` returns the packing of a message whose header copies the
request's id, opcode and rd bit, sets qr to 1, rcode to 2, ra to 0, ancount
to 0, qdcount to the number of questions the request carried, and whose
question section is the request's question list, with no answers. -/
theorem servfail_response (request_data : List Nat) (fuel : Nat)
    (request : DNSMessage)
    (h : DNSMessage.unpack request_data fuel = some request) :
    create_response request_data (fun _ => none) fuel
      = DNSMessage.pack ⟨⟨request.header.id, 1, request.header.opcode, 0, 0,
          request.header.rd, 0, 0, 2, request.questions.length, 0, 0, 0⟩,
        request.questions, []⟩ := by
  simp [create_response, h]

/-- Witness for C7 at a request of 12 zero bytes (empty query). -/
theorem servfail_response_witness :
    create_response (List.replicate 12 0) (fun _ => none) 1
      = DNSMessage.pack ⟨⟨0, 1, 0, 0, 0, 0, 0, 0, 2, 0, 0, 0, 0⟩, [], []⟩ :=
  servfail_response (List.replicate 12 0) 1
    ⟨⟨0, 0, 0, 0, 0, 0, 0, 0, 0, 0, 0, 0, 0⟩, [], []⟩ (by decide)

/-! Section: C8: truncated buffer fails cleanly -/

/-- C8: for every 12-byte buffer whose header declares qdcount 1, message
decoding fails (the first question's name read is out of bounds) instead of
fabricating question data — for every fuel value. -/
theorem truncated_message_unpack (data : List Nat) (h12 : data.length = 12)
    (hq : readU16 data 4 = some 1) (fuel : Nat) :
    DNSMessage.unpack data fuel = none := by
  obtain ⟨v0, h0⟩ := readU16_some_of_lt data 0 (by omega)
  obtain ⟨v2, h2⟩ := readU16_some_of_lt data 2 (by omega)
  obtain ⟨v6, h6⟩ := readU16_some_of_lt data 6 (by omega)
  obtain ⟨v8, h8⟩ := readU16_some_of_lt data 8 (by omega)
  obtain ⟨v10, h10⟩ := readU16_some_of_lt data 10 (by omega)
  have hname : unpack_domain_name data 12 fuel = none := by
    unfold unpack_domain_name
    cases fuel with
    | zero => rfl
    | succ f =>
      simp only [unpack_domain_name_aux]
      rw [List.getElem?_eq_none (by omega)]
  have hfail : DNSQuestion.unpack data 12 fuel = none := by
    simp [DNSQuestion.unpack, hname]
  have hq0 : unpack_questions data fuel (0 + 1) 12 = none := by
    simp only [unpack_questions, Option.bind_eq_bind, hfail,
      Option.none_bind]
  have hq1 : unpack_questions data fuel 1 12 = none := hq0
  simp only [DNSMessage.unpack, DNSHeader.unpack, Option.bind_eq_bind, h0,
    h2, hq, h6, h8, h10, Option.some_bind, Option.pure_def, hq1,
    Option.none_bind]

/-- Witness for C8 at the 12-byte buffer whose only nonzero byte declares
qdcount 1. -/
theorem truncated_message_unpack_witness :
    DNSMessage.unpack [0, 0, 0, 0, 0, 1, 0, 0, 0, 0, 0, 0] 3 = none :=
  truncated_message_unpack [0, 0, 0, 0, 0, 1, 0, 0, 0, 0, 0, 0] (by decide)
    (by decide) 3

/-! Section: C9: decoded names and empty labels -/

theorem splitDot_append_dot (a b : List Char) :
    splitDot (a ++ '.' :: b) = splitDot a ++ splitDot b := by
  induction a with
  | nil =>
    cases hs : splitDot b with
    | nil => exact absurd hs (splitDot_ne_nil b)
    | cons p ps => simp [splitDot, hs]
  | cons c cs ih =>
    cases hs : splitDot cs with
    | nil => exact absurd hs (splitDot_ne_nil cs)
    | cons p ps =>
      have hs2 : splitDot (cs ++ '.' :: b) = p :: (ps ++ splitDot b) := by
        rw [ih, hs]
        simp
      by_cases hc : c = '.' <;>
        simp [List.cons_append, splitDot, hs2, hs, hc]

theorem splitDot_no_dot (l : List Char) (h : ∀ c ∈ l, c ≠ '.') :
    splitDot l = [l] := by
  induction l with
  | nil => rfl
  | cons c cs ih =>
    have hc : c ≠ '.' := h c (by simp)
    have ih2 := ih (fun x hx => h x (by simp [hx]))
    simp [splitDot, ih2, hc]

theorem joinDot_no_empty (parts : List (List Char))
    (h : ∀ p ∈ parts, p ≠ [] ∧ [] ∉ splitDot p) :
    parts = [] ∨ [] ∉ splitDot (joinDot parts) := by
  induction parts with
  | nil => exact Or.inl rfl
  | cons p ps ih =>
    right
    cases ps with
    | nil => simpa [joinDot] using (h p (by simp)).2
    | cons q qs =>
      have hp := h p (by simp)
      have hrest := ih (fun x hx => h x (by simp [hx]))
      have hrest2 : [] ∉ splitDot (joinDot (q :: qs)) := by
        rcases hrest with h1 | h2
        · exact absurd h1 (by simp)
        · exact h2
      have hj : joinDot (p :: q :: qs) = p ++ '.' :: joinDot (q :: qs) := rfl
      rw [hj, splitDot_append_dot]
      intro hmem
      rcases List.mem_append.mp hmem with hm | hm
      · exact hp.2 hm
      · exact hrest2 hm

theorem joinParts_no_empty (parts : List (List Char))
    (h : ∀ p ∈ parts, p = [] ∨ [] ∉ splitDot p) :
    joinParts parts = [] ∨ [] ∉ splitDot (joinParts parts) := by
  unfold joinParts
  have hf : ∀ p ∈ parts.filter (fun p => decide (p ≠ [])),
      p ≠ [] ∧ [] ∉ splitDot p := by
    intro p hp
    have hmf := List.mem_filter.mp hp
    have hne : p ≠ [] := of_decide_eq_true hmf.2
    rcases h p hmf.1 with h1 | h2
    · exact absurd h1 hne
    · exact ⟨hne, h2⟩
  rcases joinDot_no_empty _ hf with h1 | h2
  · left
    rw [h1]
    rfl
  · right
    exact h2

theorem mem_of_mem_sliceBytes {data : List Nat} {a b x : Nat}
    (h : x ∈ sliceBytes data a b) : x ∈ data := by
  unfold sliceBytes at h
  exact ((List.take_sublist _ _).trans (List.drop_sublist _ _)).subset h

theorem char_toNat_ofNat_small {b : Nat} (h : b < 128) :
    (Char.ofNat b).toNat = b := by
  have hv : b.isValidChar := Or.inl (by omega)
  rw [Char.ofNat, dif_pos hv]
  rfl

theorem char_ofNat_ne_dot {b : Nat} (hb : b < 128) (hne : b ≠ 46) :
    Char.ofNat b ≠ '.' := by
  intro hc
  have heq := char_toNat_ofNat_small hb
  rw [hc] at heq
  have h46 : ('.').toNat = 46 := rfl
  omega

theorem aux_no_empty_label :
    ∀ (fuel : Nat) (data : List Nat) (offset : Nat) (acc : List (List Char))
      (nm : List Char) (o : Nat),
    (∀ b ∈ data, b ≠ 46) →
    (∀ p ∈ acc, p = [] ∨ [] ∉ splitDot p) →
    unpack_domain_name_aux data fuel offset acc = some (nm, o) →
    nm = [] ∨ [] ∉ splitDot nm := by
  intro fuel
  induction fuel with
  | zero =>
    intro data offset acc nm o _ _ h
    simp [unpack_domain_name_aux] at h
  | succ f ih =>
    intro data offset acc nm o hdot hacc h
    simp only [unpack_domain_name_aux] at h
    cases hL : data[offset]? with
    | none => simp [hL] at h
    | some L =>
      simp only [hL] at h
      by_cases hptr : L &&& 192 = 192
      · rw [if_pos hptr] at h
        cases hb : data[offset + 1]? with
        | none => simp [hb] at h
        | some b =>
          simp only [hb] at h
          cases hrec : unpack_domain_name_aux data f
              (((L &&& 63) <<< 8) ||| b) [] with
          | none => simp [hrec] at h
          | some pr =>
            obtain ⟨pn, r⟩ := pr
            simp only [hrec, Option.some.injEq, Prod.mk.injEq] at h
            have hpn := ih data (((L &&& 63) <<< 8) ||| b) [] pn r hdot
              (by simp) hrec
            have hjp := joinParts_no_empty (acc ++ [pn]) ?hinv
            case hinv =>
              intro p hp
              rcases List.mem_append.mp hp with hm | hm
              · exact hacc p hm
              · simp only [List.mem_singleton] at hm
                subst hm
                exact hpn
            rw [h.1] at hjp
            exact hjp
      · rw [if_neg hptr] at h
        by_cases h0 : L = 0
        · rw [if_pos h0] at h
          simp only [Option.some.injEq, Prod.mk.injEq] at h
          have hjp := joinParts_no_empty acc hacc
          rw [h.1] at hjp
          exact hjp
        · rw [if_neg h0] at h
          cases had : ascii_decode (sliceBytes data (offset + 1)
              (offset + 1 + L)) with
          | none => simp [had] at h
          | some label =>
            simp only [had] at h
            have hlab : label = [] ∨ [] ∉ splitDot label := by
              unfold ascii_decode at had
              by_cases hall : ∀ x ∈ sliceBytes data (offset + 1)
                  (offset + 1 + L), x < 128
              · rw [if_pos hall] at had
                simp only [Option.some.injEq] at had
                subst had
                by_cases hl0 : sliceBytes data (offset + 1)
                    (offset + 1 + L) = []
                · left
                  rw [hl0]
                  rfl
                · right
                  rw [splitDot_no_dot]
                  · simp only [List.mem_singleton]
                    intro heq
                    exact hl0 (List.map_eq_nil_iff.mp heq.symm)
                  · intro c hc
                    obtain ⟨x, hx, rfl⟩ := List.mem_map.mp hc
                    exact char_ofNat_ne_dot (hall x hx)
                      (hdot x (mem_of_mem_sliceBytes hx))
              · rw [if_neg hall] at had
                exact absurd had (by simp)
            exact ih data (offset + 1 + L) (acc ++ [label]) nm o hdot
              (fun p hp => by
                rcases List.mem_append.mp hp with hm | hm
                · exact hacc p hm
                · simp only [List.mem_singleton] at hm
                  subst hm
                  exact hlab) h

/-- C9 (amended): for every buffer containing no literal dot byte (0x2E)
and every offset and fuel on which decoding succeeds, the returned name is
empty or its dot-split contains no empty label — it never begins or ends
with a dot and never contains two consecutive dots — because empty parts
(in particular a compression pointer's target that is an
immediately-terminating, empty name) are filtered out before joining.  The
proviso is forced by the counterexample: a label byte that is itself a
literal '.' (buffer [1, 46, 0]) makes the decoded name begin with a dot. -/
theorem decoded_name_no_empty_labels (data : List Nat) (offset fuel : Nat)
    (nm : List Char) (o : Nat)
    (hdot : ∀ b ∈ data, b ≠ 46)
    (h : unpack_domain_name data offset fuel = some (nm, o)) :
    nm = [] ∨ [] ∉ splitDot nm :=
  aux_no_empty_label fuel data offset [] nm o hdot (by simp) h

/-- Witness for C9 (amended) at a buffer whose compression pointer targets
an immediately-terminating (empty) name: the label "foo" at offset 1
followed by a pointer (0xC0, 0) to the zero byte at offset 0 decodes to
exactly "foo" — the empty pointed part is filtered, leaving no trailing
dot and no empty label. -/
theorem decoded_name_no_empty_labels_witness :
    unpack_domain_name [0, 3, 102, 111, 111, 192, 0] 1 3
        = some (['f', 'o', 'o'], 7) ∧
      (['f', 'o', 'o'] = [] ∨ [] ∉ splitDot ['f', 'o', 'o']) :=
  ⟨by decide,
    decoded_name_no_empty_labels [0, 3, 102, 111, 111, 192, 0] 1 3
      ['f', 'o', 'o'] 7 (by decide) (by decide)⟩

/-- Counterexample for C9 as stated: the buffer [1, 46, 0] holds one
one-byte label whose byte is a literal '.' (0x2E); decoding succeeds and
the returned name is ".", which begins (and ends) with a dot. -/
theorem decoded_name_cex :
    unpack_domain_name [1, 46, 0] 0 2 = some (['.'], 3) ∧
      (['.'] : List Char).head? = some '.' := by
  decide

end DnsServer
